import Mathlib

/-!
Shallow embedding of `src/automata.rs` (crate `verf`): finite automata as
directed labelled multigraphs (petgraph `DiGraph<State, Transition>`),
the acceptance engine `is_accepted`, and the structural model checker
`model_check`.

Embedding conventions:
* A `DiGraph` is a list of node weights plus the list of edges in insertion
  order; `NodeIndex`/`EdgeIndex` are plain `Nat` positions.
* petgraph's `Graph::edges(n)` walks the per-node linked list of outgoing
  edges, which is extended at the head by `add_edge`; it therefore yields
  the outgoing edges in reverse insertion order. `outEdges` mirrors this.
* Rust code that can panic (indexing `automaton[node]`, the visit maps of
  `Dfs`/`Bfs` on an out-of-range start node) is embedded in `Option`:
  `none` is the panic. `Graph::edges` on an out-of-range index returns an
  empty iterator (no panic), and is embedded accordingly.
* Every automaton obtainable through petgraph's safe API has all edge
  endpoints in range (`WellFormed` below); behaviour outside that class is
  not claimed.
-/

namespace Verf

/-- `State` from automata.rs: display name plus accepting flag. -/
structure State where
  name : String
  is_accepting : Bool
deriving DecidableEq, Repr

/-- `Transition` from automata.rs: a single labelling symbol. -/
structure Transition where
  symbol : Char
deriving DecidableEq, Repr

/-- `Automaton = DiGraph<State, Transition>`: node weights in insertion
order, edges `(source, target, weight)` in insertion order. -/
structure Automaton where
  states : List State
  edges : List (Nat × Nat × Transition)
deriving DecidableEq, Repr

/-- All edge endpoints are in range.  Every value of petgraph's
`DiGraph` built through its safe API satisfies this invariant. -/
def WellFormed (a : Automaton) : Prop :=
  ∀ e ∈ a.edges, e.1 < a.states.length ∧ e.2.1 < a.states.length

instance (a : Automaton) : Decidable (WellFormed a) := by
  unfold WellFormed; infer_instance

/-- `automaton.edges(n)`: outgoing edges of node `n` in petgraph's
enumeration order, i.e. reverse insertion order (`add_edge` prepends to
the node's outgoing-edge list). -/
def outEdges (a : Automaton) (n : Nat) : List (Nat × Nat × Transition) :=
  (a.edges.filter (fun e => e.1 == n)).reverse

/-- The inner loop of `is_accepted`: scan `automaton.edges(current_state)`
for the first edge whose symbol matches `c`; return its target. -/
def findTransition (a : Automaton) (cur : Nat) (c : Char) : Option Nat :=
  ((outEdges a cur).find? (fun e => e.2.2.symbol == c)).map (fun e => e.2.1)

/-- The main loop of `is_accepted`: consume the input symbol by symbol,
`none` when some symbol has no matching transition. -/
def run (a : Automaton) : Nat → List Char → Option Nat
  | st, [] => some st
  | st, c :: cs =>
    match findTransition a st c with
    | some st' => run a st' cs
    | none => none

/-- `is_accepted` on the character sequence of the input.  A failed
transition search returns `false` at once; otherwise the final state is
indexed (`automaton[current_state]`), which panics (`none`) when node 0
does not exist. -/
def acceptsChars (a : Automaton) (cs : List Char) : Option Bool :=
  match run a 0 cs with
  | none => some false
  | some f => (a.states.get? f).map State.is_accepting

/-- `is_accepted(automaton, input)` from automata.rs. -/
def is_accepted (a : Automaton) (input : String) : Option Bool :=
  acceptsChars a input.data

/-- Targets of the outgoing edges of `n` (petgraph `neighbors`). -/
def succs (a : Automaton) (n : Nat) : List Nat :=
  (outEdges a n).map (fun e => e.2.1)

/-- One saturation step of graph search: keep the visited set and add
every successor of a visited node. -/
def stepSet (a : Automaton) (s : Finset Nat) : Finset Nat :=
  s ∪ s.biUnion (fun n => (succs a n).toFinset)

/-- Visited sets of the saturation, starting from node 0. -/
def reachN (a : Automaton) : Nat → Finset Nat
  | 0 => {0}
  | k + 1 => stepSet a (reachN a k)

/-- The set of nodes petgraph's `Dfs`/`Bfs` from node 0 visits: the
saturation is complete after `node_count` rounds. -/
def reachableSet (a : Automaton) : Finset Nat :=
  reachN a a.states.length

/-- `automaton[n].is_accepting` (in-range indices only ever arise). -/
def isAcceptingIdx (a : Automaton) (n : Nat) : Bool :=
  ((a.states.get? n).map State.is_accepting).getD false

/-- The per-state seen-symbol check of the `deterministic` branch: no
symbol occurs twice in the list. -/
def distinctSymbols : List Char → Bool
  | [] => true
  | c :: cs => (!(cs.contains c)) && distinctSymbols cs

/-- `model_check(automaton, property)` from automata.rs.  The two
traversal branches construct a `Dfs`/`Bfs` visit map sized by the node
count and visit the start node `NodeIndex(0)` into it, which panics
(`none`) when the automaton has no nodes; otherwise each branch is total. -/
def model_check (a : Automaton) (property : String) : Option Bool :=
  if property = "reachable_accepting" then
    if a.states.isEmpty then none
    else some (decide (∃ n ∈ reachableSet a, isAcceptingIdx a n = true))
  else if property = "all_states_reachable" then
    if a.states.isEmpty then none
    else some (decide ((reachableSet a).card = a.states.length))
  else if property = "deadlock_free" then
    some ((List.range a.states.length).all (fun n => !(outEdges a n).isEmpty))
  else if property = "deterministic" then
    some ((List.range a.states.length).all
      (fun n => distinctSymbols ((outEdges a n).map (fun e => e.2.2.symbol))))
  else
    some false

/-- `build_simple_automaton`. -/
def build_simple_automaton : Automaton :=
  { states := [⟨"S0", false⟩, ⟨"S1", false⟩, ⟨"S2", true⟩],
    edges := [(0, 1, ⟨'a'⟩), (1, 2, ⟨'b'⟩), (2, 0, ⟨'a'⟩), (2, 1, ⟨'b'⟩)] }

/-- `build_even_a_automaton`: node 0 = "Even" (accepting), node 1 = "Odd". -/
def build_even_a_automaton : Automaton :=
  { states := [⟨"Even", true⟩, ⟨"Odd", false⟩],
    edges := [(0, 1, ⟨'a'⟩), (1, 0, ⟨'a'⟩), (0, 0, ⟨'b'⟩), (1, 1, ⟨'b'⟩)] }

/-- `build_contains_aba_automaton`: nodes S0..S3, S3 accepting. -/
def build_contains_aba_automaton : Automaton :=
  { states := [⟨"S0", false⟩, ⟨"S1", false⟩, ⟨"S2", false⟩, ⟨"S3", true⟩],
    edges := [(0, 1, ⟨'a'⟩), (0, 0, ⟨'b'⟩),
              (1, 1, ⟨'a'⟩), (1, 2, ⟨'b'⟩),
              (2, 3, ⟨'a'⟩), (2, 0, ⟨'b'⟩),
              (3, 3, ⟨'a'⟩), (3, 3, ⟨'b'⟩)] }

/-- A non-deterministic automaton: two edges labelled `a` leave node 0. -/
def crafted_nondet_automaton : Automaton :=
  { states := [⟨"N0", false⟩, ⟨"N1", true⟩],
    edges := [(0, 0, ⟨'a'⟩), (0, 1, ⟨'a'⟩)] }

/-- Reachability from the start state (node 0) along directed edges. -/
inductive Reaches (a : Automaton) : Nat → Prop
  | start : Reaches a 0
  | step {n m : Nat} {t : Transition} :
      Reaches a n → (n, m, t) ∈ a.edges → Reaches a m

end Verf

namespace Verf

/-! ### Basic lemmas about the acceptance engine -/

theorem find?_eq_head?_filter {α : Type} (l : List α) (p : α → Bool) :
    l.find? p = (l.filter p).head? := by
  induction l with
  | nil => rfl
  | cons a l ih =>
    rw [List.find?_cons, List.filter_cons]
    by_cases h : p a
    · simp [h]
    · simp only [h]
      simpa [h] using ih

theorem run_append (a : Automaton) (st : Nat) (l r : List Char) :
    run a st (l ++ r) = (run a st l).bind (fun m => run a m r) := by
  induction l generalizing st with
  | nil => rfl
  | cons c cs ih =>
    rw [List.cons_append, run, run]
    cases findTransition a st c with
    | none => rfl
    | some st' => exact ih st'

theorem findTransition_eq_getLast (a : Automaton) (st : Nat) (c : Char) :
    findTransition a st c =
      ((a.edges.filter (fun e => e.1 == st && e.2.2.symbol == c)).getLast?).map
        (fun e => e.2.1) := by
  rw [findTransition, outEdges, find?_eq_head?_filter, List.filter_reverse,
    List.head?_reverse, List.filter_filter]
  have hcomm : (fun (e : Nat × Nat × Transition) => e.2.2.symbol == c && e.1 == st)
      = (fun (e : Nat × Nat × Transition) => e.1 == st && e.2.2.symbol == c) := by
    funext e
    exact Bool.and_comm ..
  rw [hcomm]

theorem findTransition_mem (a : Automaton) (st m : Nat) (c : Char)
    (h : findTransition a st c = some m) : ∃ t, (st, m, t) ∈ a.edges := by
  rw [findTransition] at h
  rcases Option.map_eq_some'.mp h with ⟨e, he, htgt⟩
  have hmem := List.mem_of_find?_eq_some he
  rw [outEdges, List.mem_reverse, List.mem_filter] at hmem
  obtain ⟨hmem, hsrc⟩ := hmem
  obtain ⟨e1, e2, et⟩ := e
  simp only [beq_iff_eq] at hsrc
  simp only at htgt
  subst hsrc
  subst htgt
  exact ⟨et, hmem⟩

theorem run_lt (a : Automaton) (hwf : WellFormed a) :
    ∀ (cs : List Char) (st f : Nat), st < a.states.length →
      run a st cs = some f → f < a.states.length := by
  intro cs
  induction cs with
  | nil => intro st f hst h; rw [run] at h; cases h; exact hst
  | cons c cs ih =>
    intro st f hst h
    rw [run] at h
    cases hft : findTransition a st c with
    | none => rw [hft] at h; cases h
    | some st' =>
      rw [hft] at h
      obtain ⟨t, hmem⟩ := findTransition_mem a st st' c hft
      exact ih st' f (hwf _ hmem).2 h

/-! ### The parity automaton -/

theorem run_even_a (cs : List Char) : ∀ st : Nat, st < 2 →
    (∀ c ∈ cs, c = 'a' ∨ c = 'b') →
    run build_even_a_automaton st cs = some ((st + cs.count 'a') % 2) := by
  induction cs with
  | nil =>
    intro st hst _
    rw [run, List.count_nil]
    congr 1
    omega
  | cons c cs ih =>
    intro st hst hcs
    have htail : ∀ c ∈ cs, c = 'a' ∨ c = 'b' :=
      fun d hd => hcs d (List.mem_cons_of_mem _ hd)
    interval_cases st <;> rcases hcs c (List.mem_cons_self ..) with rfl | rfl
    · rw [run, show findTransition build_even_a_automaton 0 'a' = some 1 from rfl]
      show run build_even_a_automaton 1 cs = _
      rw [ih 1 (by omega) htail]
      simp [List.count_cons]
      omega
    · rw [run, show findTransition build_even_a_automaton 0 'b' = some 0 from rfl]
      show run build_even_a_automaton 0 cs = _
      rw [ih 0 (by omega) htail]
      simp [List.count_cons]
    · rw [run, show findTransition build_even_a_automaton 1 'a' = some 0 from rfl]
      show run build_even_a_automaton 0 cs = _
      rw [ih 0 (by omega) htail]
      simp [List.count_cons]
      omega
    · rw [run, show findTransition build_even_a_automaton 1 'b' = some 1 from rfl]
      show run build_even_a_automaton 1 cs = _
      rw [ih 1 (by omega) htail]
      simp [List.count_cons]

theorem accepts_even (cs : List Char) (h : ∀ c ∈ cs, c = 'a' ∨ c = 'b') :
    acceptsChars build_even_a_automaton cs = some (decide (cs.count 'a' % 2 = 0)) := by
  rw [acceptsChars, run_even_a cs 0 (by omega) h, Nat.zero_add]
  rcases Nat.mod_two_eq_zero_or_one (cs.count 'a') with h0 | h1
  · rw [h0]
    simp [build_even_a_automaton, h0]
  · rw [h1]
    simp [build_even_a_automaton, h1]

/-! ### The substring automaton -/

theorem suffix_snoc_iff {α : Type} [DecidableEq α] (t s : List α) (x c : α) :
    (t ++ [x]) <:+ (s ++ [c]) ↔ x = c ∧ t <:+ s := by
  rw [← List.reverse_prefix, List.reverse_append, List.reverse_append]
  simp only [List.reverse_singleton, List.singleton_append]
  rw [List.cons_prefix_cons, List.reverse_prefix]

theorem infix_snoc_iff {α : Type} [DecidableEq α] (t s : List α) (c : α) :
    t <:+: (s ++ [c]) ↔ t <:+: s ∨ t <:+ (s ++ [c]) := by
  rw [← List.reverse_infix, List.reverse_append]
  simp only [List.reverse_singleton, List.singleton_append]
  rw [List.infix_cons_iff]
  constructor
  · rintro (h | h)
    · right
      rw [← List.reverse_prefix]
      simpa [List.reverse_append] using h
    · left
      rwa [List.reverse_infix] at h
  · rintro (h | h)
    · right
      rwa [List.reverse_infix]
    · left
      rw [← List.reverse_prefix] at h
      simpa [List.reverse_append] using h

/-- The progress measure of `build_contains_aba_automaton`: the state the
automaton is in after consuming `s` (over the alphabet `{a, b}`). -/
def abaState (s : List Char) : Nat :=
  if ['a', 'b', 'a'] <:+: s then 3
  else if ['a', 'b'] <:+ s then 2
  else if ['a'] <:+ s then 1
  else 0

theorem abaState_eq_three {s : List Char} (h : ['a', 'b', 'a'] <:+: s) :
    abaState s = 3 := by
  simp [abaState, h]

theorem abaState_eq_two {s : List Char} (h3 : ¬ ['a', 'b', 'a'] <:+: s)
    (h2 : ['a', 'b'] <:+ s) : abaState s = 2 := by
  simp [abaState, h3, h2]

theorem abaState_eq_one {s : List Char} (h3 : ¬ ['a', 'b', 'a'] <:+: s)
    (h2 : ¬ ['a', 'b'] <:+ s) (h1 : ['a'] <:+ s) : abaState s = 1 := by
  simp [abaState, h3, h2, h1]

theorem abaState_eq_zero {s : List Char} (h3 : ¬ ['a', 'b', 'a'] <:+: s)
    (h2 : ¬ ['a', 'b'] <:+ s) (h1 : ¬ ['a'] <:+ s) : abaState s = 0 := by
  simp [abaState, h3, h2, h1]

theorem aba_suffix_snoc (s : List Char) (c : Char) :
    ['a', 'b', 'a'] <:+ (s ++ [c]) ↔ c = 'a' ∧ ['a', 'b'] <:+ s := by
  have := suffix_snoc_iff ['a', 'b'] s 'a' c
  simpa [eq_comm] using this

theorem ab_suffix_snoc (s : List Char) (c : Char) :
    ['a', 'b'] <:+ (s ++ [c]) ↔ c = 'b' ∧ ['a'] <:+ s := by
  have := suffix_snoc_iff ['a'] s 'b' c
  simpa [eq_comm] using this

theorem a_suffix_snoc (s : List Char) (c : Char) :
    ['a'] <:+ (s ++ [c]) ↔ c = 'a' := by
  have := suffix_snoc_iff [] s 'a' c
  simpa [List.nil_suffix, eq_comm] using this

theorem aba_infix_snoc (s : List Char) (c : Char) :
    ['a', 'b', 'a'] <:+: (s ++ [c]) ↔
      ['a', 'b', 'a'] <:+: s ∨ (c = 'a' ∧ ['a', 'b'] <:+ s) := by
  rw [infix_snoc_iff, aba_suffix_snoc]

theorem not_a_suffix_of_ab_suffix {s : List Char} (h : ['a', 'b'] <:+ s) :
    ¬ ['a'] <:+ s := by
  intro h1
  rcases List.suffix_or_suffix_of_suffix h1 h with h' | h'
  · exact absurd h' (by decide)
  · exact absurd h' (by decide)

theorem run_aba (s : List Char) : (∀ c ∈ s, c = 'a' ∨ c = 'b') →
    run build_contains_aba_automaton 0 s = some (abaState s) := by
  induction s using List.reverseRecOn with
  | nil => intro _; decide
  | append_singleton s c ih =>
    intro h
    have hs : ∀ d ∈ s, d = 'a' ∨ d = 'b' := fun d hd => h d (List.mem_append_left _ hd)
    have hc : c = 'a' ∨ c = 'b' := h c (List.mem_append_right _ (by simp))
    rw [run_append, ih hs]
    show run build_contains_aba_automaton (abaState s) [c] = some (abaState (s ++ [c]))
    by_cases h3 : ['a', 'b', 'a'] <:+: s
    · have h3' : ['a', 'b', 'a'] <:+: s ++ [c] := h3.trans (List.prefix_append s [c]).isInfix
      rw [abaState_eq_three h3, abaState_eq_three h3']
      rcases hc with rfl | rfl
      · decide
      · decide
    · by_cases h2 : ['a', 'b'] <:+ s
      · rw [abaState_eq_two h3 h2]
        rcases hc with rfl | rfl
        · have haba : ['a', 'b', 'a'] <:+: s ++ ['a'] :=
            List.IsSuffix.isInfix ((aba_suffix_snoc s 'a').mpr ⟨rfl, h2⟩)
          rw [abaState_eq_three haba]
          decide
        · have h3'' : ¬ ['a', 'b', 'a'] <:+: s ++ ['b'] := by
            rw [aba_infix_snoc]
            rintro (h' | ⟨h', _⟩)
            · exact h3 h'
            · exact absurd h' (by decide)
          have h2'' : ¬ ['a', 'b'] <:+ s ++ ['b'] := by
            rw [ab_suffix_snoc]
            rintro ⟨_, h1'⟩
            exact not_a_suffix_of_ab_suffix h2 h1'
          have h1'' : ¬ ['a'] <:+ s ++ ['b'] := by
            rw [a_suffix_snoc]
            decide
          rw [abaState_eq_zero h3'' h2'' h1'']
          decide
      · by_cases h1 : ['a'] <:+ s
        · rcases hc with rfl | rfl
          · have h3'' : ¬ ['a', 'b', 'a'] <:+: s ++ ['a'] := by
              rw [aba_infix_snoc]
              rintro (h' | ⟨_, h2'⟩)
              · exact h3 h'
              · exact h2 h2'
            have h2'' : ¬ ['a', 'b'] <:+ s ++ ['a'] := by
              rw [ab_suffix_snoc]
              rintro ⟨h', _⟩
              exact absurd h' (by decide)
            have h1'' : ['a'] <:+ s ++ ['a'] := (a_suffix_snoc s 'a').mpr rfl
            rw [abaState_eq_one h3 h2 h1, abaState_eq_one h3'' h2'' h1'']
            decide
          · have h3'' : ¬ ['a', 'b', 'a'] <:+: s ++ ['b'] := by
              rw [aba_infix_snoc]
              rintro (h' | ⟨h', _⟩)
              · exact h3 h'
              · exact absurd h' (by decide)
            have h2'' : ['a', 'b'] <:+ s ++ ['b'] := (ab_suffix_snoc s 'b').mpr ⟨rfl, h1⟩
            rw [abaState_eq_one h3 h2 h1, abaState_eq_two h3'' h2'']
            decide
        · rcases hc with rfl | rfl
          · have h3'' : ¬ ['a', 'b', 'a'] <:+: s ++ ['a'] := by
              rw [aba_infix_snoc]
              rintro (h' | ⟨_, h2'⟩)
              · exact h3 h'
              · exact h2 h2'
            have h2'' : ¬ ['a', 'b'] <:+ s ++ ['a'] := by
              rw [ab_suffix_snoc]
              rintro ⟨h', _⟩
              exact absurd h' (by decide)
            have h1'' : ['a'] <:+ s ++ ['a'] := (a_suffix_snoc s 'a').mpr rfl
            rw [abaState_eq_zero h3 h2 h1, abaState_eq_one h3'' h2'' h1'']
            decide
          · have h3'' : ¬ ['a', 'b', 'a'] <:+: s ++ ['b'] := by
              rw [aba_infix_snoc]
              rintro (h' | ⟨h', _⟩)
              · exact h3 h'
              · exact absurd h' (by decide)
            have h2'' : ¬ ['a', 'b'] <:+ s ++ ['b'] := by
              rw [ab_suffix_snoc]
              rintro ⟨_, h1'⟩
              exact h1 h1'
            have h1'' : ¬ ['a'] <:+ s ++ ['b'] := by
              rw [a_suffix_snoc]
              decide
            rw [abaState_eq_zero h3 h2 h1, abaState_eq_zero h3'' h2'' h1'']
            decide

theorem accepts_aba (cs : List Char) (h : ∀ c ∈ cs, c = 'a' ∨ c = 'b') :
    acceptsChars build_contains_aba_automaton cs
      = some (decide (['a', 'b', 'a'] <:+: cs)) := by
  rw [acceptsChars, run_aba cs h]
  by_cases h3 : ['a', 'b', 'a'] <:+: cs
  · rw [abaState_eq_three h3]
    simp [build_contains_aba_automaton, h3]
  · by_cases h2 : ['a', 'b'] <:+ cs
    · rw [abaState_eq_two h3 h2]
      simp [build_contains_aba_automaton, h3]
    · by_cases h1 : ['a'] <:+ cs
      · rw [abaState_eq_one h3 h2 h1]
        simp [build_contains_aba_automaton, h3]
      · rw [abaState_eq_zero h3 h2 h1]
        simp [build_contains_aba_automaton, h3]

/-! ### Reachability: the saturation `reachN` computes exactly the nodes
reachable from the start state -/

theorem mem_succs (a : Automaton) (n x : Nat) :
    x ∈ succs a n ↔ ∃ t, (n, x, t) ∈ a.edges := by
  unfold succs outEdges
  simp only [List.mem_map, List.mem_reverse, List.mem_filter, beq_iff_eq]
  constructor
  · rintro ⟨⟨e1, e2, t⟩, ⟨hmem, hsrc⟩, htgt⟩
    simp only at hsrc htgt
    subst hsrc
    subst htgt
    exact ⟨t, hmem⟩
  · rintro ⟨t, hmem⟩
    exact ⟨(n, x, t), ⟨hmem, rfl⟩, rfl⟩

theorem stepSet_mono (a : Automaton) {s t : Finset Nat} (h : s ⊆ t) :
    stepSet a s ⊆ stepSet a t := by
  unfold stepSet
  intro x hx
  rcases Finset.mem_union.mp hx with hx | hx
  · exact Finset.mem_union_left _ (h hx)
  · rcases Finset.mem_biUnion.mp hx with ⟨n, hn, hxn⟩
    exact Finset.mem_union_right _ (Finset.mem_biUnion.mpr ⟨n, h hn, hxn⟩)

theorem subset_stepSet (a : Automaton) (s : Finset Nat) : s ⊆ stepSet a s :=
  Finset.subset_union_left

theorem reachN_mono_succ (a : Automaton) (k : Nat) :
    reachN a k ⊆ reachN a (k + 1) :=
  subset_stepSet a (reachN a k)

theorem reachN_mono (a : Automaton) {k m : Nat} (h : k ≤ m) :
    reachN a k ⊆ reachN a m := by
  induction m with
  | zero =>
    rw [Nat.le_zero] at h
    subst h
    exact Finset.Subset.refl _
  | succ m ih =>
    by_cases he : k = m + 1
    · subst he
      exact Finset.Subset.refl _
    · exact (ih (Nat.lt_succ_iff.mp (Nat.lt_of_le_of_ne h he))).trans (reachN_mono_succ a m)

theorem reachN_sound (a : Automaton) (k : Nat) : ∀ x ∈ reachN a k, Reaches a x := by
  induction k with
  | zero =>
    intro x hx
    rw [reachN, Finset.mem_singleton] at hx
    subst hx
    exact Reaches.start
  | succ k ih =>
    intro x hx
    rw [reachN] at hx
    rcases Finset.mem_union.mp hx with hx | hx
    · exact ih x hx
    · rcases Finset.mem_biUnion.mp hx with ⟨n, hn, hxn⟩
      rw [List.mem_toFinset, mem_succs] at hxn
      rcases hxn with ⟨t, hmem⟩
      exact Reaches.step (ih n hn) hmem

theorem reaches_mem_reachN (a : Automaton) {x : Nat} (h : Reaches a x) :
    ∃ k, x ∈ reachN a k := by
  induction h with
  | start => exact ⟨0, by rw [reachN]; exact Finset.mem_singleton_self 0⟩
  | step hr hmem ih =>
    rename_i n m t
    rcases ih with ⟨k, hk⟩
    refine ⟨k + 1, ?_⟩
    rw [reachN]
    exact Finset.mem_union_right _
      (Finset.mem_biUnion.mpr ⟨n, hk, List.mem_toFinset.mpr ((mem_succs a n m).mpr ⟨t, hmem⟩)⟩)

theorem reachN_fix (a : Automaton) {k : Nat} (h : reachN a (k + 1) ⊆ reachN a k) :
    ∀ m, reachN a (k + m) ⊆ reachN a k := by
  intro m
  induction m with
  | zero => exact Finset.Subset.refl _
  | succ m ih =>
    have hstep : stepSet a (reachN a (k + m)) ⊆ stepSet a (reachN a k) := stepSet_mono a ih
    exact hstep.trans h

theorem reachN_card_lt (a : Automaton) :
    ∀ k, (∀ j < k, ¬ reachN a (j + 1) ⊆ reachN a j) → k + 1 ≤ (reachN a k).card := by
  intro k
  induction k with
  | zero =>
    intro _
    rw [reachN]
    simp
  | succ k ih =>
    intro h
    have hk : k + 1 ≤ (reachN a k).card := ih (fun j hj => h j (Nat.lt_succ_of_lt hj))
    have hss : reachN a k ⊂ reachN a (k + 1) :=
      Finset.ssubset_def.mpr ⟨reachN_mono_succ a k, h k (Nat.lt_succ_self k)⟩
    have := Finset.card_lt_card hss
    omega

theorem reachN_bounded (a : Automaton) (hwf : WellFormed a) (h0 : 0 < a.states.length) :
    ∀ k, reachN a k ⊆ Finset.range a.states.length := by
  intro k
  induction k with
  | zero =>
    intro x hx
    rw [reachN, Finset.mem_singleton] at hx
    subst hx
    simpa using h0
  | succ k ih =>
    intro x hx
    rw [reachN] at hx
    rcases Finset.mem_union.mp hx with hx | hx
    · exact ih hx
    · rcases Finset.mem_biUnion.mp hx with ⟨n, hn, hxn⟩
      rw [List.mem_toFinset, mem_succs] at hxn
      rcases hxn with ⟨t, hmem⟩
      exact Finset.mem_range.mpr (hwf _ hmem).2

theorem reachN_stabilizes (a : Automaton) (hwf : WellFormed a)
    (h0 : 0 < a.states.length) : ∀ m, reachN a m ⊆ reachableSet a := by
  have hex : ∃ j < a.states.length, reachN a (j + 1) ⊆ reachN a j := by
    by_contra hcon
    push_neg at hcon
    have hlt := reachN_card_lt a a.states.length (fun j hj => hcon j hj)
    have hb := Finset.card_le_card (reachN_bounded a hwf h0 a.states.length)
    rw [Finset.card_range] at hb
    omega
  rcases hex with ⟨j, hj, hfix⟩
  intro m
  rcases le_or_lt m a.states.length with hm | hm
  · exact reachN_mono a hm
  · have h1 : reachN a m ⊆ reachN a j := by
      have hjm : j ≤ m := le_of_lt (lt_trans hj hm)
      have := reachN_fix a hfix (m - j)
      rwa [Nat.add_sub_cancel' hjm] at this
    exact h1.trans (reachN_mono a (le_of_lt hj))

theorem mem_reachableSet_iff (a : Automaton) (hwf : WellFormed a)
    (h0 : 0 < a.states.length) (x : Nat) :
    x ∈ reachableSet a ↔ Reaches a x := by
  constructor
  · exact fun h => reachN_sound a _ x h
  · intro h
    rcases reaches_mem_reachN a h with ⟨k, hk⟩
    exact reachN_stabilizes a hwf h0 k hk

/-! ### Branch lemmas for `model_check` -/

theorem model_check_reachacc (a : Automaton) (h : a.states.isEmpty = false) :
    model_check a "reachable_accepting"
      = some (decide (∃ n ∈ reachableSet a, isAcceptingIdx a n = true)) := by
  rw [model_check, if_pos rfl, if_neg (by simp [h])]

theorem model_check_allreach (a : Automaton) (h : a.states.isEmpty = false) :
    model_check a "all_states_reachable"
      = some (decide ((reachableSet a).card = a.states.length)) := by
  rw [model_check, if_neg (by decide), if_pos rfl, if_neg (by simp [h])]

theorem model_check_deadlock (a : Automaton) :
    model_check a "deadlock_free"
      = some ((List.range a.states.length).all (fun n => !(outEdges a n).isEmpty)) := by
  rw [model_check, if_neg (by decide), if_neg (by decide), if_pos rfl]

theorem model_check_det (a : Automaton) :
    model_check a "deterministic"
      = some ((List.range a.states.length).all
          (fun n => distinctSymbols ((outEdges a n).map (fun e => e.2.2.symbol)))) := by
  rw [model_check, if_neg (by decide), if_neg (by decide), if_neg (by decide), if_pos rfl]

theorem model_check_unknown (a : Automaton) (p : String)
    (h1 : p ≠ "reachable_accepting") (h2 : p ≠ "all_states_reachable")
    (h3 : p ≠ "deadlock_free") (h4 : p ≠ "deterministic") :
    model_check a p = some false := by
  rw [model_check, if_neg h1, if_neg h2, if_neg h3, if_neg h4]

/-! ### Characterizations of the checked properties -/

theorem outEdges_ne_nil_iff (a : Automaton) (i : Nat) :
    ((outEdges a i).isEmpty = false) ↔ ∃ e ∈ a.edges, e.1 = i := by
  unfold outEdges
  rw [List.isEmpty_eq_false_iff_exists_mem]
  constructor
  · rintro ⟨e, he⟩
    rw [List.mem_reverse, List.mem_filter, beq_iff_eq] at he
    exact ⟨e, he.1, he.2⟩
  · rintro ⟨e, he, hi⟩
    exact ⟨e, by rw [List.mem_reverse, List.mem_filter, beq_iff_eq]; exact ⟨he, hi⟩⟩

theorem deadlock_free_iff (a : Automaton) :
    model_check a "deadlock_free" = some true ↔
      ∀ i < a.states.length, ∃ e ∈ a.edges, e.1 = i := by
  rw [model_check_deadlock]
  simp only [Option.some.injEq, List.all_eq_true, List.mem_range, Bool.not_eq_true',
    outEdges_ne_nil_iff]

theorem contains_eq_true_iff (cs : List Char) (c : Char) :
    cs.contains c = true ↔ c ∈ cs := by
  simp [List.elem_iff]

theorem distinctSymbols_iff_nodup (l : List Char) :
    distinctSymbols l = true ↔ l.Nodup := by
  induction l with
  | nil =>
    simp [distinctSymbols]
  | cons c cs ih =>
    rw [distinctSymbols, Bool.and_eq_true, ih, List.nodup_cons]
    constructor
    · rintro ⟨hnc, hnd⟩
      refine ⟨fun hm => ?_, hnd⟩
      rw [(contains_eq_true_iff cs c).mpr hm] at hnc
      simp at hnc
    · rintro ⟨hnm, hnd⟩
      refine ⟨?_, hnd⟩
      cases hcc : cs.contains c
      · rfl
      · exact absurd ((contains_eq_true_iff cs c).mp hcc) hnm

theorem deterministic_iff (a : Automaton) :
    model_check a "deterministic" = some true ↔
      ∀ i < a.states.length,
        ((a.edges.filter (fun e => e.1 == i)).map (fun e => e.2.2.symbol)).Nodup := by
  rw [model_check_det]
  simp only [Option.some.injEq, List.all_eq_true, List.mem_range]
  constructor
  · intro hall i hi
    have := (distinctSymbols_iff_nodup _).mp (hall i hi)
    unfold outEdges at this
    rwa [List.map_reverse, List.nodup_reverse] at this
  · intro hall i hi
    rw [distinctSymbols_iff_nodup]
    unfold outEdges
    rw [List.map_reverse, List.nodup_reverse]
    exact hall i hi

theorem isEmpty_false_of_pos {a : Automaton} (h0 : 0 < a.states.length) :
    a.states.isEmpty = false := by
  cases hs : a.states with
  | nil => rw [hs] at h0; simp at h0
  | cons x xs => rfl

theorem all_states_reachable_iff (a : Automaton) (hwf : WellFormed a)
    (h0 : 0 < a.states.length) :
    model_check a "all_states_reachable" = some true ↔
      ∀ i < a.states.length, Reaches a i := by
  rw [model_check_allreach a (isEmpty_false_of_pos h0)]
  simp only [Option.some.injEq, decide_eq_true_eq]
  constructor
  · intro hcard i hi
    have hsub : reachableSet a ⊆ Finset.range a.states.length :=
      reachN_bounded a hwf h0 a.states.length
    have heq : reachableSet a = Finset.range a.states.length :=
      Finset.eq_of_subset_of_card_le hsub (by rw [Finset.card_range, hcard])
    have hmem : i ∈ reachableSet a := by
      rw [heq]
      exact Finset.mem_range.mpr hi
    exact (mem_reachableSet_iff a hwf h0 i).mp hmem
  · intro hall
    have h1 : Finset.range a.states.length ⊆ reachableSet a := fun i hi =>
      (mem_reachableSet_iff a hwf h0 i).mpr (hall i (Finset.mem_range.mp hi))
    have h2 : reachableSet a ⊆ Finset.range a.states.length :=
      reachN_bounded a hwf h0 a.states.length
    rw [Finset.Subset.antisymm h2 h1, Finset.card_range]

/-! ### Totality -/

theorem is_accepted_isSome (a : Automaton) (hwf : WellFormed a)
    (h0 : 0 < a.states.length) (s : String) : (is_accepted a s).isSome = true := by
  rw [is_accepted, acceptsChars]
  cases hr : run a 0 s.data with
  | none => rfl
  | some f =>
    have hf := run_lt a hwf s.data 0 f h0 hr
    show (Option.map State.is_accepting (a.states.get? f)).isSome = true
    rw [List.get?_eq_get hf]
    rfl

theorem model_check_isSome (a : Automaton) (h0 : 0 < a.states.length) (p : String) :
    (model_check a p).isSome = true := by
  have hne := isEmpty_false_of_pos h0
  by_cases h1 : p = "reachable_accepting"
  · subst h1
    rw [model_check_reachacc a hne]
    rfl
  by_cases h2 : p = "all_states_reachable"
  · subst h2
    rw [model_check_allreach a hne]
    rfl
  by_cases h3 : p = "deadlock_free"
  · subst h3
    rw [model_check_deadlock a]
    rfl
  by_cases h4 : p = "deterministic"
  · subst h4
    rw [model_check_det a]
    rfl
  rw [model_check_unknown a p h1 h2 h3 h4]
  rfl

/-! ### Claim theorems -/

/-- C1, counterexample: the claim quantifies over every string, but on the
input "c" (a symbol outside the alphabet) the parity automaton rejects even
though the string has an even number (zero) of `a` symbols. -/
theorem even_a_counterexample :
    ¬ (is_accepted build_even_a_automaton "c" = some true ↔
        ("c".data.count 'a') % 2 = 0) := by
  decide

/-- C1 (amended): for every string over the automaton's alphabet `{a, b}`,
`is_accepted` on the parity automaton returns `some true` iff the number of
`a` symbols in the string is even (regardless of length or trailing `b`s). -/
theorem even_a_parity_amended (s : String) (h : ∀ c ∈ s.data, c = 'a' ∨ c = 'b') :
    is_accepted build_even_a_automaton s = some true ↔ s.data.count 'a' % 2 = 0 := by
  rw [is_accepted, accepts_even s.data h]
  simp

/-- C1 witness: the amended theorem applied to the concrete string "baab". -/
theorem even_a_parity_witness :
    is_accepted build_even_a_automaton "baab" = some true :=
  (even_a_parity_amended "baab" (by decide)).mpr (by decide)

/-- C2, counterexample: the claim quantifies over every string, but the
input "xaba" contains "aba" as a contiguous substring and is nevertheless
rejected ('x' has no transition from the start state). -/
theorem aba_counterexample :
    ¬ (is_accepted build_contains_aba_automaton "xaba" = some true ↔
        ['a', 'b', 'a'] <:+: "xaba".data) := by
  decide

/-- C2 (amended): for every string over the automaton's alphabet `{a, b}`,
`is_accepted` on the substring automaton returns `some true` iff the string
contains "aba" as a contiguous substring. -/
theorem aba_substring_amended (s : String) (h : ∀ c ∈ s.data, c = 'a' ∨ c = 'b') :
    is_accepted build_contains_aba_automaton s = some true ↔
      ['a', 'b', 'a'] <:+: s.data := by
  rw [is_accepted, accepts_aba s.data h]
  simp

/-- C2 witness: the amended theorem applied to the concrete string "baba". -/
theorem aba_substring_witness :
    is_accepted build_contains_aba_automaton "baba" = some true :=
  (aba_substring_amended "baba" (by decide)).mpr (by decide)

/-- C3: if, after consuming a prefix, the current state has no transition
matching the next symbol, `is_accepted` returns `false`, whatever the
remaining symbols are (the universally quantified `post` never influences
the result). -/
theorem reject_short_circuit (a : Automaton) (s : String) (pre post : List Char)
    (c : Char) (st : Nat) (hs : s.data = pre ++ c :: post)
    (h1 : run a 0 pre = some st) (h2 : findTransition a st c = none) :
    is_accepted a s = some false := by
  rw [is_accepted, hs]
  have hnone : run a 0 (pre ++ c :: post) = none := by
    rw [run_append, h1]
    show run a st (c :: post) = none
    rw [run, h2]
  rw [acceptsChars, hnone]

/-- C3 witness: the spec's concrete scenario — the "aba" automaton rejects
"xaba" at the very first symbol. -/
theorem reject_short_circuit_witness :
    is_accepted build_contains_aba_automaton "xaba" = some false :=
  reject_short_circuit build_contains_aba_automaton "xaba" [] "aba".data 'x' 0
    rfl rfl (by decide)

/-- C4: on the empty input, `is_accepted` returns exactly the accepting flag
of the start state (node 0); this covers every built automaton, all of which
have at least one state. -/
theorem empty_input_accepting_flag (a : Automaton) (h : 0 < a.states.length) :
    is_accepted a "" = some (a.states.get ⟨0, h⟩).is_accepting := by
  rw [is_accepted, show "".data = ([] : List Char) from rfl, acceptsChars]
  show Option.map State.is_accepting (a.states.get? 0) = _
  rw [List.get?_eq_get h]
  rfl

/-- C4 witness: applied to the parity automaton, whose start state "Even" is
accepting. -/
theorem empty_input_accepting_flag_witness :
    is_accepted build_even_a_automaton "" = some true :=
  (empty_input_accepting_flag build_even_a_automaton (by decide)).trans (by decide)

/-- C5: `model_check _ "deterministic"` is `some true` iff no state has two
outgoing transitions sharing a symbol (the symbols on the edges leaving each
state are pairwise distinct); it holds for the three example automata and
fails for a crafted automaton with two `a`-labelled edges leaving node 0. -/
theorem deterministic_model_check :
    (∀ a : Automaton, model_check a "deterministic" = some true ↔
        ∀ i < a.states.length,
          ((a.edges.filter (fun e => e.1 == i)).map (fun e => e.2.2.symbol)).Nodup) ∧
    model_check build_simple_automaton "deterministic" = some true ∧
    model_check build_even_a_automaton "deterministic" = some true ∧
    model_check build_contains_aba_automaton "deterministic" = some true ∧
    model_check crafted_nondet_automaton "deterministic" = some false :=
  ⟨deterministic_iff, by decide, by decide, by decide, by decide⟩

/-- C5 witness: the characterization applied to the parity automaton. -/
theorem deterministic_model_check_witness :
    model_check build_even_a_automaton "deterministic" = some true :=
  (deterministic_model_check.1 build_even_a_automaton).mpr (by decide)

/-- C6: `model_check _ "deadlock_free"` is `some true` iff every state —
reachable or not — has at least one outgoing transition; it holds for the
three example automata. -/
theorem deadlock_free_model_check :
    (∀ a : Automaton, model_check a "deadlock_free" = some true ↔
        ∀ i < a.states.length, ∃ e ∈ a.edges, e.1 = i) ∧
    model_check build_simple_automaton "deadlock_free" = some true ∧
    model_check build_even_a_automaton "deadlock_free" = some true ∧
    model_check build_contains_aba_automaton "deadlock_free" = some true :=
  ⟨deadlock_free_iff, by decide, by decide, by decide⟩

/-- C6 witness: the characterization applied to the parity automaton. -/
theorem deadlock_free_model_check_witness :
    model_check build_even_a_automaton "deadlock_free" = some true :=
  (deadlock_free_model_check.1 build_even_a_automaton).mpr (by decide)

/-- C7: for every well-formed automaton with at least one state,
`model_check _ "all_states_reachable"` is `some true` iff every node is
reachable from the start state (node 0) along directed transitions; it holds
for the three example automata. -/
theorem all_states_reachable_model_check :
    (∀ a : Automaton, WellFormed a → 0 < a.states.length →
        (model_check a "all_states_reachable" = some true ↔
          ∀ i < a.states.length, Reaches a i)) ∧
    model_check build_simple_automaton "all_states_reachable" = some true ∧
    model_check build_even_a_automaton "all_states_reachable" = some true ∧
    model_check build_contains_aba_automaton "all_states_reachable" = some true :=
  ⟨all_states_reachable_iff, by decide, by decide, by decide⟩

/-- C7 witness: the characterization applied to the parity automaton, whose
two states are both reachable. -/
theorem all_states_reachable_model_check_witness :
    model_check build_even_a_automaton "all_states_reachable" = some true :=
  (all_states_reachable_model_check.1 build_even_a_automaton (by decide)
    (by decide)).mpr (by
      intro i hi
      have hi2 : i < 2 := by simpa [build_even_a_automaton] using hi
      interval_cases i
      · exact Reaches.start
      · exact Reaches.step (t := ⟨'a'⟩) Reaches.start (by decide))

/-- C8: every property name other than the four recognized ones makes
`model_check` return `some false` (a defined result, not a panic). -/
theorem unknown_property_false (a : Automaton) (p : String)
    (h1 : p ≠ "reachable_accepting") (h2 : p ≠ "all_states_reachable")
    (h3 : p ≠ "deadlock_free") (h4 : p ≠ "deterministic") :
    model_check a p = some false :=
  model_check_unknown a p h1 h2 h3 h4

/-- C8 witness: the unknown name "liveness" on the simple automaton. -/
theorem unknown_property_false_witness :
    model_check build_simple_automaton "liveness" = some false :=
  unknown_property_false build_simple_automaton "liveness"
    (by decide) (by decide) (by decide) (by decide)

/-- C9: for every well-formed automaton with at least one state (the code
indexes node 0 unconditionally), `is_accepted` and `model_check` are total:
they return a boolean for every input string and every property name; the
panic branch of the embedding (`none`) is unreachable. -/
theorem core_operations_total (a : Automaton) (s : String) (p : String)
    (hwf : WellFormed a) (h0 : 0 < a.states.length) :
    (is_accepted a s).isSome = true ∧ (model_check a p).isSome = true :=
  ⟨is_accepted_isSome a hwf h0 s, model_check_isSome a h0 p⟩

/-- C9 witness: the parity automaton on the string "abc" (which contains a
symbol outside the alphabet) and the property "deadlock_free". -/
theorem core_operations_total_witness :
    (is_accepted build_even_a_automaton "abc").isSome = true ∧
      (model_check build_even_a_automaton "deadlock_free").isSome = true :=
  core_operations_total build_even_a_automaton "abc" "deadlock_free"
    (by decide) (by decide)

/-- C10: the acceptance engine follows the most recently added matching
edge: the first match in petgraph's edge enumeration order is the last
element, in insertion order, of the matching edges, both for a single
transition search and for a step of the main loop. -/
theorem nondet_follows_last_inserted :
    ∀ (a : Automaton) (st : Nat) (c : Char) (cs : List Char),
      findTransition a st c
        = ((a.edges.filter (fun e => e.1 == st && e.2.2.symbol == c)).getLast?).map
            (fun e => e.2.1) ∧
      run a st (c :: cs)
        = (((a.edges.filter (fun e => e.1 == st && e.2.2.symbol == c)).getLast?).map
            (fun e => e.2.1)).elim none (fun m => run a m cs) := by
  intro a st c cs
  refine ⟨findTransition_eq_getLast a st c, ?_⟩
  rw [run, ← findTransition_eq_getLast a st c]
  cases findTransition a st c <;> rfl

-- Sanity examples mirroring the spec's concrete scenarios.
example : is_accepted build_simple_automaton "ab" = some true := by decide
example : is_accepted build_simple_automaton "aa" = some false := by decide
example : is_accepted build_contains_aba_automaton "xaba" = some false := by decide
example : is_accepted build_even_a_automaton "baab" = some true := by decide
example : is_accepted build_even_a_automaton "aab" = some true := by decide
example : is_accepted build_even_a_automaton "ab" = some false := by decide
example : model_check build_even_a_automaton "deterministic" = some true := by decide
example : model_check crafted_nondet_automaton "deterministic" = some false := by decide
example : model_check build_contains_aba_automaton "all_states_reachable" = some true := by decide
example : model_check build_simple_automaton "deadlock_free" = some true := by decide
example : model_check build_simple_automaton "nonsense" = some false := by decide

end Verf
